import Mathlib

/-!
Verification development for the track classification and ordering engine of
`create-igv-session` (source: `src/create_igv_session/__init__.py`).

The Python source is shallowly embedded below.  Conventions:

* Python `pathlib.Path` objects are modelled by `FPath`, a wrapper around the
  POSIX path string (`as_posix`); `.name` and `.stem` follow the `pathlib`
  definitions.  Paths appearing in the claims contain no `.`/`..` segments or
  repeated slashes, so no normalisation is modelled.
* Python regular expressions (an external library from the point of view of
  this repository) are modelled by the deep syntax `RE` together with a
  backtracking matcher `rmatch` implementing the leftmost/greedy prefix
  semantics of `re.match`, including capture groups (a group that did not
  participate in the match yields `none`, Python's `None`).  Each concrete
  pattern used in a theorem is given as an `RE` value whose doc comment names
  the Python regex it denotes.  Universal theorems quantify over all `RE`
  values and use `rmatch` as an opaque match oracle.
* Python sort keys are lists of tuples of `int`/`str`/`None`; they are
  modelled by `List (List PyVal)`.  Python comparison of such values is
  partial (`TypeError` for, e.g., `int < str`); this is modelled by
  `Option Ordering`, where `none` stands for `TypeError`.
* Python `sorted` is a stable comparison sort; it is modelled by stable
  insertion sort (`stableSort`).  On inputs whose keys are pairwise
  order-comparable this computes exactly the Python result.
* Fallible code (`assert`, `exit(1)`) is modelled with `Except`/`Option`.
-/

/-- Scalar values that occur in Python sort keys: `int`, `str` and `None`. -/
inductive PyVal : Type where
  | pint (n : Int)
  | pstr (s : String)
  | pnone
deriving DecidableEq, Repr

/-- Python `==` on sort-key scalars: total, `None == None` is `True`,
cross-type comparisons are `False` (no exception). -/
def pyEq : PyVal → PyVal → Bool
  | .pint a, .pint b => a == b
  | .pstr a, .pstr b => a == b
  | .pnone, .pnone => true
  | _, _ => false

/-- Lexicographic strict order on character lists, by code point (Python's
string order).  Defined by structural recursion so that concrete comparisons
reduce definitionally. -/
def charsLt : List Char → List Char → Bool
  | _, [] => false
  | [], _ :: _ => true
  | c :: cs, d :: ds => decide (c.toNat < d.toNat) || (c == d && charsLt cs ds)

/-- Python `a <= b` on strings. -/
def pyStrLe (a b : String) : Bool := a == b || charsLt a.data b.data

/-- Three-way comparison of strings using the lexicographic order. -/
def strOrd (a b : String) : Ordering :=
  if charsLt a.data b.data then .lt else if a == b then .eq else .gt

/-- Three-way comparison of integers. -/
def intOrd (a b : Int) : Ordering :=
  if a < b then .lt else if a = b then .eq else .gt

/-- Python `<`/`>` on sort-key scalars: defined for `int`/`int` and
`str`/`str`; every other combination raises `TypeError`, modelled by
`none`. -/
def pyCmp : PyVal → PyVal → Option Ordering
  | .pint a, .pint b => some (intOrd a b)
  | .pstr a, .pstr b => some (strOrd a b)
  | _, _ => none

/-- Python tuple comparison: skip an initial segment of pairwise `==`
elements, then compare the first differing elements (which may raise,
i.e. return `none`); a tuple that is a proper prefix of the other is
smaller. -/
def tupCmp : List PyVal → List PyVal → Option Ordering
  | [], [] => some .eq
  | [], _ :: _ => some .lt
  | _ :: _, [] => some .gt
  | x :: xs, y :: ys => if pyEq x y then tupCmp xs ys else pyCmp x y

/-- Python tuple equality: total, elementwise `pyEq` plus equal length. -/
def tupEq : List PyVal → List PyVal → Bool
  | [], [] => true
  | x :: xs, y :: ys => pyEq x y && tupEq xs ys
  | _, _ => false

/-- Python comparison of two sort keys (lists of tuples): same algorithm as
tuple comparison, with tuples as elements. -/
def keyCmp : List (List PyVal) → List (List PyVal) → Option Ordering
  | [], [] => some .eq
  | [], _ :: _ => some .lt
  | _ :: _, [] => some .gt
  | x :: xs, y :: ys => if tupEq x y then keyCmp xs ys else tupCmp x y

/-- Boolean `less-or-equal` on sort keys, used as the comparator handed to the
stable sort.  When the two keys are order-comparable this is exactly Python's
`<=`; the `none` (`TypeError`) case is totalised to `true` and is never
reached by theorems that speak about Python behaviour. -/
def keyLe (a b : List (List PyVal)) : Bool :=
  match keyCmp a b with
  | some .gt => false
  | _ => true

/-- Stable insertion of `x` into a sorted list: `x` goes in front of the first
element `y` with `le x y`, hence in front of elements equal to `x` that were
originally behind it. -/
def stableInsert (le : α → α → Bool) (x : α) : List α → List α
  | [] => [x]
  | y :: ys => if le x y then x :: y :: ys else y :: stableInsert le x ys

/-- Stable insertion sort; on a total preorder `le` it computes the same list
as Python's stable `sorted`. -/
def stableSort (le : α → α → Bool) : List α → List α
  | [] => []
  | x :: xs => stableInsert le x (stableSort le xs)

/-- Python `s.endswith(t)`: is `t` a suffix of `s` (by characters)? -/
def pyEndsWith (s t : String) : Bool := t.data.isSuffixOf s.data

/-- Worker for Python `s.replace(pat, rep)` on character lists: replace the
non-overlapping occurrences of a non-empty `pat` left to right.  `fuel`
(instantiated to more than the input length) makes the recursion structural
so that concrete computations reduce definitionally. -/
def charsReplace : Nat → List Char → List Char → List Char → List Char
  | 0, _, _, l => l
  | _ + 1, _, _, [] => []
  | fuel + 1, pat, rep, c :: cs =>
    if pat.isPrefixOf (c :: cs) && !pat.isEmpty then
      rep ++ charsReplace fuel pat rep ((c :: cs).drop pat.length)
    else c :: charsReplace fuel pat rep cs

/-- Python `s.replace(pat, rep)` for non-empty `pat` (the source only
replaces the needles `"forward"` and `"reverse"`). -/
def pyReplace (s pat rep : String) : String :=
  String.mk (charsReplace (s.data.length + 1) pat.data rep.data s.data)

/-- Python `s[:-n]` for `n ≤ len(s)`: drop the last `n` characters. -/
def pyDropRight (s : String) (n : Nat) : String :=
  String.mk (s.data.take (s.data.length - n))

/-- Model of `pathlib.Path`: the POSIX path string. -/
structure FPath : Type where
  posix : String
deriving DecidableEq, Repr

/-- Model of `Path.name`: the final path component, i.e. the longest
slash-free suffix of the POSIX string. -/
def FPath.name (p : FPath) : String :=
  String.mk ((p.posix.data.reverse.takeWhile (fun c => c != '/')).reverse)

/-- Model of `Path.stem`: the name with its last suffix removed; following
`pathlib`, a dot at position 0 or at the very end does not start a suffix. -/
def FPath.stem (p : FPath) : String :=
  let n := p.name
  match n.data.reverse.findIdx? (fun c => c == '.') with
  | none => n
  | some j =>
    let i := n.length - 1 - j
    if 0 < i ∧ i < n.length - 1 then String.mk (n.data.take i) else n

/-- Model of the source's `Track` / `RNABigWig` dataclasses as a tagged
variant: `rnaBigWig` corresponds to an object of the `RNABigWig` subclass
(`isinstance(x, RNABigWig)` holds exactly for that constructor). -/
inductive TrackItem : Type where
  | track (path : FPath) (index : Option FPath)
  | rnaBigWig (path : FPath) (index : Option FPath) (reverse_strand : Option FPath)
deriving DecidableEq, Repr

/-- Accessor for the `path` field shared by `Track` and `RNABigWig`. -/
def TrackItem.path : TrackItem → FPath
  | .track p _ => p
  | .rnaBigWig p _ _ => p

/-- Accessor for the `index` field shared by `Track` and `RNABigWig`. -/
def TrackItem.index : TrackItem → Option FPath
  | .track _ i => i
  | .rnaBigWig _ i _ => i

/-- Deep syntax for the fragment of Python regular expressions used by the
program's rule sets: literal characters, `.` (any character except newline),
concatenation, alternation `|` (left-preferring), greedy `*`, and numbered
capture groups `( ... )`.  A greedy `?` is `alt a eps`.  `^` at the start of a
pattern is a no-op under `re.match` and is therefore not represented. -/
inductive RE : Type where
  | eps
  | lit (c : Char)
  | anyc
  | seq (a b : RE)
  | alt (a b : RE)
  | star (a : RE)
  | grp (n : Nat) (a : RE)
deriving DecidableEq, Repr

/-- Number of capture groups of a pattern (groups are numbered 1.. as in
Python; `numGroups` is the largest group number occurring). -/
def RE.numGroups : RE → Nat
  | .eps => 0
  | .lit _ => 0
  | .anyc => 0
  | .seq a b => max a.numGroups b.numGroups
  | .alt a b => max a.numGroups b.numGroups
  | .star a => a.numGroups
  | .grp n a => max n a.numGroups

/-- Structural size of a pattern, used only to compute a sufficient fuel
value for the backtracking matcher. -/
def RE.size : RE → Nat
  | .eps => 1
  | .lit _ => 1
  | .anyc => 1
  | .seq a b => 1 + a.size + b.size
  | .alt a b => 1 + a.size + b.size
  | .star a => 1 + a.size
  | .grp _ a => 1 + a.size

/-- Character comparison, optionally case-insensitive (`re.IGNORECASE`). -/
def ceq (icase : Bool) (a b : Char) : Bool :=
  if icase then a.toLower == b.toLower else a == b

/-- Record the text captured by group `n`, overwriting an earlier capture of
the same group (Python keeps the last capture). -/
def setCap (caps : List (Nat × String)) (n : Nat) (s : String) : List (Nat × String) :=
  if caps.any (fun e => e.1 == n) then
    caps.map (fun e => if e.1 == n then (n, s) else e)
  else caps ++ [(n, s)]

/-- Backtracking matcher in continuation-passing style, implementing the
leftmost/greedy semantics of Python `re.match` anchored at the start of the
input.  `caps` is the current capture environment; the continuation receives
the remaining input and captures.  The `star` case only iterates when the
body consumed at least one character, which mirrors Python's refusal to loop
on empty matches; greedy preference is the left operand of `orElse`.  `fuel`
only bounds the recursion depth; `rmatch` supplies a value large enough for
every pattern/input pair that occurs in the theorems below. -/
def matRE (icase : Bool) :
    Nat → RE → List Char → List (Nat × String) →
    (List Char → List (Nat × String) → Option (List (Nat × String))) →
    Option (List (Nat × String))
  | 0, _, _, _, _ => none
  | _ + 1, .eps, s, caps, k => k s caps
  | _ + 1, .lit _, [], _, _ => none
  | _ + 1, .lit c, d :: s, caps, k => if ceq icase c d then k s caps else none
  | _ + 1, .anyc, [], _, _ => none
  | _ + 1, .anyc, d :: s, caps, k => if d == '\n' then none else k s caps
  | fuel + 1, .seq a b, s, caps, k =>
    matRE icase fuel a s caps (fun s2 caps2 => matRE icase fuel b s2 caps2 k)
  | fuel + 1, .alt a b, s, caps, k =>
    (matRE icase fuel a s caps k).orElse (fun _ => matRE icase fuel b s caps k)
  | fuel + 1, .star a, s, caps, k =>
    (matRE icase fuel a s caps (fun s2 caps2 =>
      if s2.length < s.length then matRE icase fuel (.star a) s2 caps2 k
      else none)).orElse (fun _ => k s caps)
  | fuel + 1, .grp n a, s, caps, k =>
    matRE icase fuel a s caps (fun s2 caps2 =>
      k s2 (setCap caps2 n (String.mk (s.take (s.length - s2.length)))))

/-- Model of `re.match(pattern, s)` (with `re.IGNORECASE` when `icase` is
set): `none` when the pattern does not match a prefix of `s`; on success,
the list modelling `match.groups()` — one entry per capture group, `none`
standing for Python's `None` when the group did not participate. -/
def rmatch (icase : Bool) (r : RE) (s : String) : Option (List (Option String)) :=
  match matRE icase ((r.size + 2) * (s.length + 2)) r s.data []
      (fun _ caps => some caps) with
  | some caps => some ((List.range r.numGroups).map (fun i =>
      (caps.find? (fun e => e.1 == i + 1)).map (fun e => e.2)))
  | none => none

/-- Convert `match.groups()` to sort-key scalars: a captured string becomes a
`str`, a non-participating group becomes `None`. -/
def capsToPy (caps : List (Option String)) : List PyVal :=
  caps.map (fun c => match c with | some s => .pstr s | none => .pnone)

/-- Inner loop of `multikey_sort` over one pattern group: try the patterns in
order (with `re.IGNORECASE`); the first match yields the tuple of its capture
groups if it has any, else the one-element tuple of the pattern's 0-based
index `i`; `none` when no pattern of the group matches. -/
def groupFirstMatch (s : String) : Nat → List RE → Option (List PyVal)
  | _, [] => none
  | i, p :: ps =>
    match rmatch true p s with
    | some caps =>
      some (if caps.isEmpty then [.pint (Int.ofNat i)] else capsToPy caps)
    | none => groupFirstMatch s (i + 1) ps

/-- Sub-key contributed by one pattern group: the first-match value, or the
one-element tuple holding the group's length when nothing matched. -/
def groupKey (s : String) (group : List RE) : List PyVal :=
  match groupFirstMatch s 0 group with
  | some k => k
  | none => [.pint (Int.ofNat group.length)]

/-- Model of the source's `multikey_sort`: with an empty pattern-group list
the key is the one-element list holding the string itself; otherwise one
sub-key per pattern group, in order. -/
def multikey_sort (s : String) (patterns : List (List RE)) : List (List PyVal) :=
  if patterns.isEmpty then [[.pstr s]]
  else patterns.map (fun g => groupKey s g)

/-- Model of the source's `match_any_pattern`: does any pattern prefix-match
the track's POSIX path (no `IGNORECASE` here)? -/
def match_any_pattern (trackpath : TrackItem) (patterns : List RE) : Bool :=
  patterns.any (fun p => (rmatch false p trackpath.path.posix).isSome)

/-- Sort key of one track, as computed inside `sort_paths`:
`multikey_sort(trackpath.path.as_posix(), sort_patterns)`. -/
def trackKey (patterns : List (List RE)) (t : TrackItem) : List (List PyVal) :=
  multikey_sort t.path.posix patterns

/-- Conflict check of `sort_paths`: for every pattern-group index `g` and
every candidate key `k`, Python evaluates `keys[0][g] > k[g]` and treats a
`TypeError` (modelled by `tupCmp … = none`) as a conflict.  With no
candidates, or an empty pattern list, nothing is checked. -/
def sortKeyConflict (keys : List (List (List PyVal))) (numPatterns : Nat) : Bool :=
  match keys with
  | [] => false
  | k0 :: _ =>
    (List.range numPatterns).any (fun g =>
      keys.any (fun k => (tupCmp (k0.getD g []) (k.getD g [])).isNone))

/-- Model of the source's `sort_paths`: compute every key, run the conflict
check (a detected conflict prints a diagnostic and exits, modelled by
`.error ()`), then stably sort by key.  The sorting branch totalises the key
comparator; it coincides with Python whenever all keys are pairwise
order-comparable (when they are not, Python's `sorted` raises an uncaught
`TypeError`, a crash distinct from the conflict diagnostic). -/
def sort_paths (trackpaths : List TrackItem) (sort_patterns : List (List RE)) :
    Except Unit (List TrackItem) :=
  let keys := trackpaths.map (trackKey sort_patterns)
  if sortKeyConflict keys sort_patterns.length then .error ()
  else .ok (stableSort
    (fun a b => keyLe (trackKey sort_patterns a) (trackKey sort_patterns b)) trackpaths)

/-- One step of the loop of `group_tracks_with_indexes`.  `acc` holds the
emitted tracks in reverse order; `prev` is the path immediately preceding the
current one in the sorted input.  A path ending in `.tbi` whose last four
characters removed give exactly `prev` is attached as the index of the last
emitted track (overwriting its index field); otherwise a new track is
emitted. -/
def gtwiStep (acc : List TrackItem) (prev p : FPath) : List TrackItem :=
  if pyEndsWith p.name ".tbi" && (prev.posix == pyDropRight p.posix 4) then
    match acc with
    | [] => []
    | t :: rest => .track t.path (some p) :: rest
  else .track p none :: acc

/-- Loop of `group_tracks_with_indexes` over the sorted tail. -/
def gtwiGo : List TrackItem → FPath → List FPath → List TrackItem
  | acc, _, [] => acc.reverse
  | acc, prev, p :: ps => gtwiGo (gtwiStep acc prev p) p ps

/-- Model of the source's `group_tracks_with_indexes`: sort the paths by
their POSIX string, emit the first path as a track, then process the tail.
Python indexes `paths[0]` unconditionally, so the empty input raises
`IndexError`, modelled by `none`. -/
def group_tracks_with_indexes (paths : List FPath) : Option (List TrackItem) :=
  let sorted := stableSort (fun a b => pyStrLe a.posix b.posix) paths
  match sorted with
  | [] => none
  | p0 :: rest => some (gtwiGo [.track p0 none] p0 rest)

/-- Substring containment test (Python's `in` on strings), for the non-empty
needles `"forward"` and `"reverse"`: removing every occurrence changes the
string exactly when an occurrence exists. -/
def hasSubstr (s pat : String) : Bool := pyReplace s pat "" != s

/-- Append a track to `paths_dict[key]` preserving Python dict insertion
order: an existing key keeps its position, a new key goes to the end. -/
def dictAppend (d : List (String × List TrackItem)) (key : String) (t : TrackItem) :
    List (String × List TrackItem) :=
  if d.any (fun e => e.1 == key) then
    d.map (fun e => if e.1 == key then (e.1, e.2 ++ [t]) else e)
  else d ++ [(key, [t])]

/-- One step of the candidate-filter loop of `group_rna_strands`: a file not
ending in `bigWig`, or containing neither `"forward"` nor `"reverse"` in its
name, is moved to the pass-through list; otherwise it is grouped under its
full path with the substrings `"forward"` and `"reverse"` removed. -/
def rnaPartitionStep (st : List (String × List TrackItem) × List TrackItem)
    (t : TrackItem) : List (String × List TrackItem) × List TrackItem :=
  if !(pyEndsWith t.path.name "bigWig") then (st.1, st.2 ++ [t])
  else if !(hasSubstr t.path.name "reverse") && !(hasSubstr t.path.name "forward") then
    (st.1, st.2 ++ [t])
  else
    let nm := pyReplace (pyReplace t.path.posix "forward" "") "reverse" ""
    (dictAppend st.1 nm t, st.2)

/-- Mutation `rna_tracks[-1].reverse_strand = path` on the reversed
accumulator: overwrite the reverse strand of the most recently appended
`RNABigWig`. -/
def setHeadReverse (acc : List TrackItem) (rev : FPath) : List TrackItem :=
  match acc with
  | .rnaBigWig p idx _ :: rest => .rnaBigWig p idx (some rev) :: rest
  | other => other

/-- Pairing loop of `group_rna_strands` over one group's file list (`acc`
reversed).  A name containing `"forward"` opens a new `RNABigWig`; a name
containing `"reverse"` (and not `"forward"`) fills the most recently opened
one, or — when no forward strand is open — prints a diagnostic and `break`s
out of the group. -/
def pairGroupGo (acc : List TrackItem) (fwdOpen : Bool) : List TrackItem → List TrackItem
  | [] => acc.reverse
  | t :: ts =>
    if hasSubstr t.path.name "forward" then
      pairGroupGo (.rnaBigWig t.path none none :: acc) true ts
    else if hasSubstr t.path.name "reverse" then
      if fwdOpen then pairGroupGo (setHeadReverse acc t.path) fwdOpen ts
      else acc.reverse
    else pairGroupGo acc fwdOpen ts

/-- Pairing of one group of `paths_dict`. -/
def pairGroup (ts : List TrackItem) : List TrackItem := pairGroupGo [] false ts

/-- Model of the source's `group_rna_strands`: partition the tracks by the
RNA patterns, sort the RNA candidates by file name, filter/group them by
normalised path, pair each group, and return the paired tracks followed by
every pass-through track. -/
def group_rna_strands (tracks : List TrackItem) (rna_track_patterns : List RE) :
    List TrackItem :=
  let isRna := fun (t : TrackItem) =>
    rna_track_patterns.any (fun p => (rmatch false p t.path.posix).isSome)
  let rna0 := tracks.filter isRna
  let other0 := tracks.filter (fun t => !(isRna t))
  let sortedRna := stableSort (fun a b => pyStrLe a.path.name b.path.name) rna0
  let st := sortedRna.foldl rnaPartitionStep ([], other0)
  (st.1.map (fun e => pairGroup e.2)).flatten ++ st.2

/-- Scalar attribute values occurring in track records and feature patches.
The only non-integer numeric literal in the source is `alpha = 0.5`; such
one-decimal numbers are stored exactly as tenths (`vtenths 5`). -/
inductive Value : Type where
  | vstr (s : String)
  | vint (n : Int)
  | vbool (b : Bool)
  | vtenths (t : Int)
deriving DecidableEq, Repr

/-- A track record: a Python dict.  The insertion-ordered scalar entries are
in `attrs`; the `"tracks"` key, which holds a list of child records when
present, is modelled by the `children` field (feature patches in this
development never write the key `"tracks"`). -/
inductive TrackRec : Type where
  | mk (attrs : List (String × Value)) (children : Option (List TrackRec)) : TrackRec

/-- Scalar entries of a record. -/
def TrackRec.attrs : TrackRec → List (String × Value)
  | .mk a _ => a

/-- Child records under the `"tracks"` key, when present. -/
def TrackRec.children : TrackRec → Option (List TrackRec)
  | .mk _ c => c

/-- Python `d[key] = v` on an insertion-ordered dict: an existing key keeps
its position and gets the new value, a new key is appended. -/
def updEntry (attrs : List (String × Value)) (key : String) (v : Value) :
    List (String × Value) :=
  if attrs.any (fun e => e.1 == key) then
    attrs.map (fun e => if e.1 == key then (key, v) else e)
  else attrs ++ [(key, v)]

/-- Python `d.update(patch)`: assign the patch entries in order. -/
def updAttrs (attrs patch : List (String × Value)) : List (String × Value) :=
  patch.foldl (fun acc kv => updEntry acc kv.1 kv.2) attrs

/-- Python `d.get(key)` on the scalar entries. -/
def lookupAttr (attrs : List (String × Value)) (key : String) : Option Value :=
  (attrs.find? (fun e => e.1 == key)).map (fun e => e.2)

/-- The source's `BASE_TRACK_FEATURES` table, in declaration order. -/
def BASE_TRACK_FEATURES : List (String × List (String × Value)) :=
  [ (".bed", [("format", .vstr "bed"), ("type", .vstr "annotation"), ("height", .vint 25)]),
    (".bed.gz", [("format", .vstr "bed"), ("type", .vstr "annotation"), ("height", .vint 25)]),
    (".narrowPeak", [("format", .vstr "bed"), ("type", .vstr "annotation"), ("height", .vint 25)]),
    (".broadPeak", [("format", .vstr "bed"), ("type", .vstr "annotation"), ("height", .vint 25)]),
    (".narrowPeak.gz", [("format", .vstr "narrowPark"), ("type", .vstr "annotation"), ("height", .vint 25)]),
    (".broadPeak.gz", [("format", .vstr "broadPeak"), ("type", .vstr "annotation"), ("height", .vint 25)]),
    (".bigWig", [("format", .vstr "bigWig"), ("type", .vstr "wig")]),
    (".bigWig.gz", [("format", .vstr "bigWig"), ("type", .vstr "wig")]),
    (".gtf", [("format", .vstr "gtf"), ("type", .vstr "annotation")]),
    (".gff", [("format", .vstr "gff"), ("type", .vstr "annotation")]) ]

/-- The source's `BASE_OVERLAY_TRACK_FEATURES` dict, in declaration order. -/
def BASE_OVERLAY_TRACK_FEATURES : List (String × Value) :=
  [("type", .vstr "merged"), ("autoscale", .vbool false),
   ("alpha", .vtenths 5), ("height", .vint 50)]

/-- The dict built by the plain branch of `set_base_track_features` before
the extension table is applied, in the source's insertion order (`indexUrl`
is added only when an index is present). -/
def sbfBaseAttrs (path : FPath) (index : Option FPath) (order : Int) (pre : String) :
    List (String × Value) :=
  let base : List (String × Value) :=
    [("name", .vstr path.stem), ("filename", .vstr path.name),
     ("track_path", .vstr path.posix), ("order", .vint order),
     ("url", .vstr (pre ++ path.posix))]
  match index with
  | some idx => base ++ [("indexUrl", .vstr (pre ++ idx.posix))]
  | none => base

/-- The plain (non-`RNABigWig`) branch of `set_base_track_features`: build
the dict in the source's insertion order, then apply every matching
`BASE_TRACK_FEATURES` entry (matched by `name.endswith(extension)`). -/
def sbfPlainAttrs (path : FPath) (index : Option FPath) (order : Int) (pre : String) :
    List (String × Value) :=
  BASE_TRACK_FEATURES.foldl
    (fun acc ef => if pyEndsWith path.name ef.1 then updAttrs acc ef.2 else acc)
    (sbfBaseAttrs path index order pre)

/-- Model of the source's `set_base_track_features`.  For an `RNABigWig` the
source first asserts `reverse_strand is not None` (an unpaired record makes
the program abort, modelled by `.error`), then builds the overlay dict from
`BASE_OVERLAY_TRACK_FEATURES`, the overlay name, `type = "merged"`, and the
two child records built from bare `Track` objects (so the children carry no
index even if the original did).  Note the overlay dict receives neither an
`order` nor a `url` key. -/
def set_base_track_features (trackpath : TrackItem) (order : Int) (pre : String) :
    Except String TrackRec :=
  match trackpath with
  | .rnaBigWig p _ rev =>
    match rev with
    | none => .error "AssertionError: trackpath.reverse_strand is None"
    | some r =>
      let attrs0 := updAttrs [] BASE_OVERLAY_TRACK_FEATURES
      let attrs1 := updEntry attrs0 "name"
        (.vstr ("Overlay " ++ pyReplace p.name "forward" ""))
      let attrs2 := updEntry attrs1 "type" (.vstr "merged")
      .ok (.mk attrs2 (some
        [.mk (sbfPlainAttrs p none order pre) none,
         .mk (sbfPlainAttrs r none order pre) none]))
  | .track p idx => .ok (.mk (sbfPlainAttrs p idx order pre) none)

/-- Rule loop shared by both branches of `update_track_features`: for each
`(pattern, feature)` in declaration order, if the pattern prefix-matches the
subject, merge the feature patch into the record's entries. -/
def applyRules (rules : List (RE × List (String × Value))) (subject : String)
    (attrs : List (String × Value)) : List (String × Value) :=
  rules.foldl
    (fun acc r => if (rmatch false r.1 subject).isSome then updAttrs acc r.2 else acc)
    attrs

mutual

/-- Model of the source's `update_track_features`.  A record whose `"type"`
entry is `"merged"` is an overlay: its match subject is its `"name"` entry
(asserted present and a string), its children (asserted present) are updated
recursively, and then the rules are applied to the overlay's own entries.
Any other record uses its `"track_path"` entry (asserted present and a
string) as subject.  Failed assertions are fatal, modelled by `.error`. -/
def update_track_features (rules : List (RE × List (String × Value))) :
    TrackRec → Except String TrackRec
  | .mk attrs children =>
    if lookupAttr attrs "type" == some (.vstr "merged") then
      match lookupAttr attrs "name" with
      | some (.vstr nm) =>
        match children with
        | some ts =>
          match updateChildren rules ts with
          | .error e => .error e
          | .ok ts2 => .ok (.mk (applyRules rules nm attrs) (some ts2))
        | none => .error "AssertionError: tracks is None"
      | _ => .error "AssertionError: name is None or not a str"
    else
      match lookupAttr attrs "track_path" with
      | some (.vstr tp) => .ok (.mk (applyRules rules tp attrs) children)
      | _ => .error "AssertionError: track_path is None or not a str"

/-- The list comprehension `[update_track_features(t, …) for t in tracks]`
applied to the children of an overlay. -/
def updateChildren (rules : List (RE × List (String × Value))) :
    List TrackRec → Except String (List TrackRec)
  | [] => .ok []
  | t :: ts =>
    match update_track_features rules t with
    | .error e => .error e
    | .ok t2 =>
      match updateChildren rules ts with
      | .error e => .error e
      | .ok ts2 => .ok (t2 :: ts2)

end

/-- Sequence a list of fallible computations, failing on the first error, as
a Python list comprehension over a raising function does. -/
def listExcept : List (Except ε α) → Except ε (List α)
  | [] => .ok []
  | .error e :: _ => .error e
  | .ok a :: rest =>
    match listExcept rest with
    | .error e => .error e
    | .ok as2 => .ok (a :: as2)

/-- Model of the record-construction line of `main`:
`[set_base_track_features(tp, prefix=url, order=i + 10) for i, tp in enumerate(trackpaths)]`. -/
def makeTrackRecords (trackpaths : List TrackItem) (pre : String) :
    Except String (List TrackRec) :=
  listExcept (trackpaths.enum.map
    (fun it => set_base_track_features it.2 (Int.ofNat it.1 + 10) pre))

/-- Regex denoting the literal string `s` (no metacharacters). -/
def reStr (s : String) : RE :=
  s.data.foldr (fun c acc => RE.seq (RE.lit c) acc) RE.eps

/-- The Python regex `.*`, which `re.match` accepts on every string. -/
def rePatAll : RE := RE.star RE.anyc

/-- The StrandGrouper example input of the spec: two pairable sampleA strand
files and an unpaired sampleB forward file. -/
def c1Tracks : List TrackItem :=
  [ .track ⟨"sampleA.forward.bigWig"⟩ none,
    .track ⟨"sampleA.reverse.bigWig"⟩ none,
    .track ⟨"sampleB.forward.bigWig"⟩ none ]

/-- The Python regex `(a)1`: one capture group. -/
def reA1 : RE := RE.seq (RE.grp 1 (RE.lit 'a')) (RE.lit '1')

/-- The Python regex `(a)(b)?2`: two capture groups, the second optional. -/
def reAB2 : RE :=
  RE.seq (RE.grp 1 (RE.lit 'a')) (RE.seq (RE.alt (RE.grp 2 (RE.lit 'b')) RE.eps) (RE.lit '2'))

/-- A single pattern group mixing capture arities: `[(a)1, (a)(b)?2]`. -/
def c3Patterns : List (List RE) := [[reA1, reAB2]]

/-- Candidates `a1`, `a2`, `ab2` for the sort-key conflict analysis. -/
def c3Tracks : List TrackItem :=
  [.track ⟨"a1"⟩ none, .track ⟨"a2"⟩ none, .track ⟨"ab2"⟩ none]

/-- A pipeline input containing one paired overlay track. -/
def c4Input : List TrackItem :=
  [.rnaBigWig ⟨"sampleA.forward.bigWig"⟩ none (some ⟨"sampleA.reverse.bigWig"⟩)]

/-- Two RNA files in the same pairing group (their paths agree after deleting
`forward`/`reverse`) in which the reverse-strand file sorts first by name. -/
def c6Tracks : List TrackItem :=
  [ .track ⟨"a.reverse.bigWig"⟩ none, .track ⟨"a.reverseforward.bigWig"⟩ none ]

/-- The FeatureApplier example record of the spec. -/
def c7Rec : TrackRec := .mk [("track_path", .vstr "x/y.bed")] none

/-- The FeatureApplier example rules of the spec: `^x/.*` sets height 30,
then `^x/y.*` sets height 50. -/
def c7Rules : List (RE × List (String × Value)) :=
  [ (RE.seq (reStr "x/") rePatAll, [("height", .vint 30)]),
    (RE.seq (reStr "x/y") rePatAll, [("height", .vint 50)]) ]

/-- A record whose `track_path` is rewritten by the first feature rule. -/
def c9Rec : TrackRec := .mk [("track_path", .vstr "x")] none

/-- Feature rules (patterns `^x` and `^y`) whose first patch rewrites the
match subject `track_path`. -/
def c9Rules : List (RE × List (String × Value)) :=
  [ (reStr "x", [("track_path", .vstr "y"), ("height", .vint 1)]),
    (reStr "y", [("height", .vint 2)]) ]

/-- One forward file followed, in the same pairing group, by two
reverse-strand files (all three paths agree after deleting
`forward`/`reverse`). -/
def c10Tracks : List TrackItem :=
  [ .track ⟨"a.forward.bigWig"⟩ none,
    .track ⟨"a.reverse.bigWig"⟩ none,
    .track ⟨"a.reversereverse.bigWig"⟩ none ]

theorem stableInsert_length (le : α → α → Bool) (x : α) (l : List α) :
    (stableInsert le x l).length = l.length + 1 := by
  induction l with
  | nil => rfl
  | cons y ys ih =>
    unfold stableInsert
    split
    · simp
    · simpa using ih

theorem stableSort_length (le : α → α → Bool) (l : List α) :
    (stableSort le l).length = l.length := by
  induction l with
  | nil => rfl
  | cons x xs ih => simp [stableSort, stableInsert_length, ih]

theorem mem_stableInsert (le : α → α → Bool) (x a : α) (l : List α) :
    a ∈ stableInsert le x l ↔ a = x ∨ a ∈ l := by
  induction l with
  | nil => simp [stableInsert]
  | cons y ys ih =>
    unfold stableInsert
    split
    · simp [or_comm, or_assoc, or_left_comm]
    · simp [ih]
      tauto

theorem mem_stableSort (le : α → α → Bool) (a : α) (l : List α) :
    a ∈ stableSort le l ↔ a ∈ l := by
  induction l with
  | nil => simp [stableSort]
  | cons x xs ih => simp [stableSort, mem_stableInsert, ih]

theorem pyEndsWith_iff (s t : String) : pyEndsWith s t = true ↔ t.data <:+ s.data := by
  simp [pyEndsWith, List.isSuffixOf_iff_suffix]

theorem name_suffix (p : FPath) : p.name.data <:+ p.posix.data := by
  have h1 : (p.posix.data.reverse.takeWhile (fun c => c != '/')) <+: p.posix.data.reverse :=
    List.takeWhile_prefix _
  have h2 := List.reverse_suffix.mpr h1
  simpa [FPath.name] using h2

theorem suffix_eq_append {l t : List Char} (h : t <:+ l) :
    l = l.take (l.length - t.length) ++ t := by
  obtain ⟨pre, hp⟩ := h
  subst hp
  have : (pre ++ t).length - t.length = pre.length := by simp
  rw [this, List.take_left]

theorem attach_posix {prev p : FPath}
    (h1 : pyEndsWith p.name ".tbi" = true)
    (h2 : prev.posix = pyDropRight p.posix 4) :
    p.posix = prev.posix ++ ".tbi" := by
  have hs : (".tbi" : String).data <:+ p.posix.data :=
    List.IsSuffix.trans ((pyEndsWith_iff _ _).mp h1) (name_suffix p)
  have h4 : (".tbi" : String).data.length = 4 := rfl
  have he : p.posix.data = p.posix.data.take (p.posix.data.length - 4) ++ (".tbi" : String).data := by
    have := suffix_eq_append hs
    rwa [h4] at this
  apply String.ext
  rw [String.data_append, h2]
  exact he

/-- The invariant of one returned track: its index, when present, is the
track's own path extended by the fixed `.tbi` suffix. -/
def IndexOk (t : TrackItem) : Prop :=
  ∀ idx, t.index = some idx → idx.posix = t.path.posix ++ ".tbi"

theorem gtwiGo_ok (rest : List FPath) :
    ∀ (acc : List TrackItem) (t0 : TrackItem) (prev : FPath),
    (∀ p ∈ rest, pyEndsWith p.posix ".tbi.tbi" = false) →
    (∀ u ∈ t0 :: acc, IndexOk u) →
    (t0.path.posix = prev.posix ∨ prev.posix = t0.path.posix ++ ".tbi") →
    (gtwiGo (t0 :: acc) prev rest).length ≤ rest.length + (t0 :: acc).length ∧
    ∀ u ∈ gtwiGo (t0 :: acc) prev rest, IndexOk u := by
  induction rest with
  | nil =>
    intro acc t0 prev _ hok _
    unfold gtwiGo
    constructor
    · simp
    · intro u hu
      exact hok u (List.mem_reverse.mp hu)
  | cons p ps ih =>
    intro acc t0 prev hno hok hrel
    unfold gtwiGo gtwiStep
    by_cases hc : (pyEndsWith p.name ".tbi" && (prev.posix == pyDropRight p.posix 4)) = true
    · -- attach branch
      have hc1 : pyEndsWith p.name ".tbi" = true := by
        have := hc; simp [Bool.and_eq_true] at this; exact this.1
      have hc2 : prev.posix = pyDropRight p.posix 4 := by
        have := hc; simp [Bool.and_eq_true] at this; exact this.2
      have hp : p.posix = prev.posix ++ ".tbi" := attach_posix hc1 hc2
      rcases hrel with hrel | hrel
      · -- head was the immediately preceding path: attach is sound
        rw [hc]
        simp only [if_true]
        have hnewok : ∀ u ∈ TrackItem.track t0.path (some p) :: acc, IndexOk u := by
          intro u hu
          rcases List.mem_cons.mp hu with h | h
          · subst h
            intro idx hidx
            simp [TrackItem.index] at hidx
            subst hidx
            rw [hp, ← hrel]
            rfl
          · exact hok u (List.mem_cons_of_mem _ h)
        have := ih acc (.track t0.path (some p)) p
          (fun q hq => hno q (List.mem_cons_of_mem _ hq)) hnewok
          (Or.inr (by rw [hp, ← hrel]; rfl))
        constructor
        · calc (gtwiGo (TrackItem.track t0.path (some p) :: acc) p ps).length
              ≤ ps.length + (TrackItem.track t0.path (some p) :: acc).length := this.1
          _ ≤ (p :: ps).length + (t0 :: acc).length := by
              simp only [List.length_cons]; omega
        · exact this.2
      · -- head already carries an attached index: p would end in .tbi.tbi
        exfalso
        have hpp : p.posix = t0.path.posix ++ ".tbi.tbi" := by
          rw [hp, hrel]
          apply String.ext
          simp [String.data_append]
        have : pyEndsWith p.posix ".tbi.tbi" = true := by
          rw [pyEndsWith_iff, hpp, String.data_append]
          exact List.suffix_append _ _
        rw [hno p (List.mem_cons_self _ _)] at this
        exact Bool.false_ne_true this
    · -- emit branch
      rw [Bool.not_eq_true] at hc
      rw [hc]
      simp only [Bool.false_eq_true, if_false]
      have hnewok : ∀ u ∈ TrackItem.track p none :: t0 :: acc, IndexOk u := by
        intro u hu
        rcases List.mem_cons.mp hu with h | h
        · subst h
          intro idx hidx
          simp [TrackItem.index] at hidx
        · exact hok u h
      have := ih (t0 :: acc) (.track p none) p
        (fun q hq => hno q (List.mem_cons_of_mem _ hq)) hnewok
        (Or.inl rfl)
      constructor
      · calc (gtwiGo (TrackItem.track p none :: t0 :: acc) p ps).length
            ≤ ps.length + (TrackItem.track p none :: t0 :: acc).length := this.1
        _ ≤ (p :: ps).length + (t0 :: acc).length := by
            simp only [List.length_cons]; omega
      · exact this.2

/-- C2 counterexample: on the input `a`, `a.tbi`, `a.tbi.tbi` the only
returned track is `a`, whose index is `a.tbi.tbi`, which is not
`"a" ++ ".tbi"`. -/
theorem claim_C2_counterexample :
    group_tracks_with_indexes [⟨"a"⟩, ⟨"a.tbi"⟩, ⟨"a.tbi.tbi"⟩] =
      some [.track ⟨"a"⟩ (some ⟨"a.tbi.tbi"⟩)] ∧
    ("a.tbi.tbi" : String) ≠ "a" ++ ".tbi" := by
  exact ⟨rfl, by decide⟩

/-- C2 amended: for every non-empty input in which no path ends with
`.tbi.tbi` (so index files cannot chain), `group_tracks_with_indexes`
returns a list of at most the input length in which every track's index,
when present, is exactly the track's own path with the fixed `.tbi` suffix
appended (and the single optional `index` field gives each data file at most
one index). -/
theorem claim_C2_amended (paths : List FPath) (h1 : paths ≠ [])
    (h2 : ∀ p ∈ paths, pyEndsWith p.posix ".tbi.tbi" = false) :
    ∃ ts, group_tracks_with_indexes paths = some ts ∧
      ts.length ≤ paths.length ∧ ∀ t ∈ ts, IndexOk t := by
  rcases hs : stableSort (fun a b => pyStrLe a.posix b.posix) paths with _ | ⟨p0, rest⟩
  · exfalso
    have := stableSort_length (fun a b => pyStrLe a.posix b.posix) paths
    rw [hs] at this
    exact h1 (List.length_eq_zero.mp this.symm)
  · have heq : group_tracks_with_indexes paths = some (gtwiGo [.track p0 none] p0 rest) := by
      unfold group_tracks_with_indexes
      rw [hs]
    have hlen := stableSort_length (fun a b => pyStrLe a.posix b.posix) paths
    rw [hs] at hlen
    have hmain := gtwiGo_ok rest [] (.track p0 none) p0
      (fun q hq => h2 q ((mem_stableSort _ q paths).mp (hs ▸ List.mem_cons_of_mem _ hq)))
      (by intro u hu; simp at hu; subst hu; intro idx hidx; simp [TrackItem.index] at hidx)
      (Or.inl rfl)
    refine ⟨_, heq, ?_, hmain.2⟩
    have h3 := hmain.1
    simp only [List.length_cons, List.length_nil] at h3 hlen ⊢
    omega

/-- C2 witness: the amended theorem applied to the two-path input `a`,
`a.tbi`. -/
theorem claim_C2_witness :
    ∃ ts, group_tracks_with_indexes [⟨"a"⟩, ⟨"a.tbi"⟩] = some ts ∧
      ts.length ≤ 2 ∧ ∀ t ∈ ts, IndexOk t := by
  have := claim_C2_amended [⟨"a"⟩, ⟨"a.tbi"⟩] (by decide) (by decide)
  simpa using this

/-- The per-group sub-key demanded by the claim: the first pattern (in
declaration order) that matches determines the sub-key — the tuple of its
captures when it has one or more capture groups, else the one-element tuple
of its 0-based index — and a group with no matching pattern contributes the
one-element tuple holding the group's length. -/
def GroupKeySpec (s : String) (group : List RE) (k : List PyVal) : Prop :=
  (∃ j, ∃ hj : j < group.length,
    (∀ j2, ∀ hj2 : j2 < group.length, j2 < j → rmatch true (group.get ⟨j2, hj2⟩) s = none) ∧
    ∃ caps, rmatch true (group.get ⟨j, hj⟩) s = some caps ∧
      k = if caps.isEmpty then [.pint (Int.ofNat j)] else capsToPy caps)
  ∨ ((∀ p ∈ group, rmatch true p s = none) ∧ k = [.pint (Int.ofNat group.length)])

theorem groupFirstMatch_spec (s : String) :
    ∀ (group : List RE) (i : Nat),
    (groupFirstMatch s i group = none → ∀ p ∈ group, rmatch true p s = none) ∧
    (∀ k, groupFirstMatch s i group = some k →
      ∃ j, ∃ hj : j < group.length,
        (∀ j2, ∀ hj2 : j2 < group.length, j2 < j →
          rmatch true (group.get ⟨j2, hj2⟩) s = none) ∧
        ∃ caps, rmatch true (group.get ⟨j, hj⟩) s = some caps ∧
          k = if caps.isEmpty then [.pint (Int.ofNat (i + j))] else capsToPy caps) := by
  intro group
  induction group with
  | nil =>
    intro i
    constructor
    · intro _ p hp
      exact absurd hp (List.not_mem_nil p)
    · intro k hk
      simp [groupFirstMatch] at hk
  | cons p ps ih =>
    intro i
    constructor
    · intro hnone q hq
      unfold groupFirstMatch at hnone
      cases hm : rmatch true p s with
      | some caps => rw [hm] at hnone; simp at hnone
      | none =>
        rw [hm] at hnone
        rcases List.mem_cons.mp hq with h | h
        · subst h; exact hm
        · exact ((ih (i + 1)).1 hnone) q h
    · intro k hk
      unfold groupFirstMatch at hk
      cases hm : rmatch true p s with
      | some caps =>
        rw [hm] at hk
        refine ⟨0, by simp, ?_, caps, ?_, ?_⟩
        · intro j2 hj2 hlt
          exact absurd hlt (Nat.not_lt_zero j2)
        · simpa using hm
        · have : k = if caps.isEmpty then [PyVal.pint (Int.ofNat i)] else capsToPy caps := by
            simpa using hk.symm
          simpa using this
      | none =>
        rw [hm] at hk
        obtain ⟨j, hj, hpri, caps, hcaps, hkk⟩ := (ih (i + 1)).2 k hk
        refine ⟨j + 1, by simpa using Nat.succ_lt_succ hj, ?_, caps, ?_, ?_⟩
        · intro j2 hj2 hlt
          cases j2 with
          | zero => simpa using hm
          | succ j3 =>
            have hj3 : j3 < ps.length := Nat.lt_of_succ_lt_succ hj2
            have := hpri j3 hj3 (Nat.lt_of_succ_lt_succ hlt)
            simpa using this
        · simpa using hcaps
        · have : i + 1 + j = i + (j + 1) := by omega
          rw [this] at hkk
          exact hkk

/-- C5: with a non-empty pattern-group list, `multikey_sort` emits one
sub-key per group in order, and every group's sub-key follows the
first-match rule (captures, else pattern index, else group length) under
case-insensitive prefix matching. -/
theorem claim_C5 (s : String) (patterns : List (List RE)) (h : patterns ≠ []) :
    multikey_sort s patterns = patterns.map (fun g => groupKey s g) ∧
    ∀ g : List RE, GroupKeySpec s g (groupKey s g) := by
  constructor
  · cases patterns with
    | nil => exact absurd rfl h
    | cons g gs => rfl
  · intro g
    unfold groupKey
    cases hg : groupFirstMatch s 0 g with
    | none => exact Or.inr ⟨(groupFirstMatch_spec s g 0).1 hg, rfl⟩
    | some k =>
      obtain ⟨j, hj, hpri, caps, hcaps, hk⟩ := (groupFirstMatch_spec s g 0).2 k hg
      refine Or.inl ⟨j, hj, hpri, caps, hcaps, ?_⟩
      simpa using hk

/-- C5 witness: the theorem applied to the candidate `ab2` and the concrete
pattern list `[[(a)1, (a)(b)?2]]`. -/
theorem claim_C5_witness :
    multikey_sort "ab2" c3Patterns = c3Patterns.map (fun g => groupKey "ab2" g) ∧
    ∀ g : List RE, GroupKeySpec "ab2" g (groupKey "ab2" g) :=
  claim_C5 "ab2" c3Patterns (by decide)

/-- C3 counterexample: with the single pattern group `[(a)1, (a)(b)?2]` and
the candidates `a1`, `a2`, `ab2`, the group produces the structurally
incomparable sub-tuples `("a", None)` (for `a2`) and `("a", "b")` (for
`ab2`) — yet `sort_paths` does not abort: every sub-tuple is comparable
with the first candidate's `("a",)`, so the conflict check passes.  (In
Python the subsequent `sorted` call then dies with an uncaught `TypeError`,
not with the `SortKeyConflict` diagnostic.) -/
theorem claim_C3_counterexample :
    (TrackItem.track ⟨"a2"⟩ none) ∈ c3Tracks ∧
    (TrackItem.track ⟨"ab2"⟩ none) ∈ c3Tracks ∧
    tupCmp ((trackKey c3Patterns (.track ⟨"a2"⟩ none)).getD 0 [])
      ((trackKey c3Patterns (.track ⟨"ab2"⟩ none)).getD 0 []) = none ∧
    sortKeyConflict (c3Tracks.map (trackKey c3Patterns)) c3Patterns.length = false ∧
    sort_paths c3Tracks c3Patterns ≠ .error () := by
  refine ⟨by decide, by decide, rfl, rfl, ?_⟩
  have hconf : sortKeyConflict (c3Tracks.map (trackKey c3Patterns)) c3Patterns.length
      = false := rfl
  simp only [sort_paths]
  rw [if_neg (by rw [hconf]; exact Bool.false_ne_true)]
  exact fun h => Except.noConfusion h

/-- C3 amended: whenever some group's sub-tuple for some candidate is not
order-comparable with the first candidate's sub-tuple for that group,
`sort_paths` aborts with the conflict error before producing any
ordering. -/
theorem claim_C3_amended (tracks : List TrackItem) (patterns : List (List RE))
    (t0 : TrackItem) (h0 : tracks.head? = some t0)
    (h : ∃ g < patterns.length, ∃ t ∈ tracks,
      tupCmp ((trackKey patterns t0).getD g []) ((trackKey patterns t).getD g []) = none) :
    sort_paths tracks patterns = .error () := by
  obtain ⟨g, hg, t, ht, htc⟩ := h
  cases tracks with
  | nil => simp at h0
  | cons a rest =>
    have ha : a = t0 := by simpa using h0
    subst ha
    have hconf : sortKeyConflict ((a :: rest).map (trackKey patterns))
        patterns.length = true := by
      simp only [List.map_cons, sortKeyConflict]
      rw [List.any_eq_true]
      refine ⟨g, List.mem_range.mpr hg, ?_⟩
      rw [List.any_eq_true]
      refine ⟨trackKey patterns t, ?_, ?_⟩
      · rw [← List.map_cons]
        exact List.mem_map_of_mem _ ht
      · rw [htc]; rfl
    simp only [sort_paths]
    rw [if_pos hconf]

/-- One pattern group `[a, (b)]` mixing an index-producing pattern with a
capture-producing one: candidate `a` yields `(0,)`, candidate `b` yields
`("b",)`, which are incomparable with each other. -/
def c3DetPatterns : List (List RE) := [[RE.lit 'a', RE.grp 1 (RE.lit 'b')]]

/-- Candidates `a` and `b` for the detected-conflict witness. -/
def c3DetTracks : List TrackItem := [.track ⟨"a"⟩ none, .track ⟨"b"⟩ none]

/-- C3 witness: the amended theorem applied to a conflict that involves the
first candidate, which the check does detect. -/
theorem claim_C3_witness : sort_paths c3DetTracks c3DetPatterns = .error () :=
  claim_C3_amended c3DetTracks c3DetPatterns (.track ⟨"a"⟩ none) rfl
    ⟨0, by decide, .track ⟨"b"⟩ none, by decide, rfl⟩

theorem keyLe_singleton (x y : String) :
    keyLe [[PyVal.pstr x]] [[PyVal.pstr y]] = pyStrLe x y := by
  by_cases hxy : (x == y) = true
  · have : x = y := by simpa using hxy
    subst this
    simp [keyLe, keyCmp, tupEq, pyEq, pyStrLe]
  · by_cases hlt : charsLt x.data y.data = true
    · simp [keyLe, keyCmp, tupEq, pyEq, hxy, tupCmp, pyCmp, strOrd, hlt, pyStrLe]
    · simp [keyLe, keyCmp, tupEq, pyEq, hxy, tupCmp, pyCmp, strOrd, hlt, pyStrLe]

/-- C8: with an empty pattern-group list the key of a candidate is the
one-element key holding the candidate string itself, and `sort_paths`
reduces to the stable lexicographic sort of the tracks by their path
strings. -/
theorem claim_C8 (s : String) (tracks : List TrackItem) :
    multikey_sort s [] = [[PyVal.pstr s]] ∧
    sort_paths tracks [] =
      .ok (stableSort (fun a b => pyStrLe a.path.posix b.path.posix) tracks) := by
  refine ⟨rfl, ?_⟩
  have hconf : sortKeyConflict (tracks.map (trackKey []))
      (List.length ([] : List (List RE))) = false := by
    cases tracks.map (trackKey []) with
    | nil => rfl
    | cons k ks => rfl
  have hcomp : (fun a b : TrackItem => keyLe (trackKey [] a) (trackKey [] b)) =
      (fun a b : TrackItem => pyStrLe a.path.posix b.path.posix) := by
    funext a b
    show keyLe [[PyVal.pstr a.path.posix]] [[PyVal.pstr b.path.posix]] = _
    exact keyLe_singleton _ _
  simp only [sort_paths]
  rw [if_neg (by rw [hconf]; exact Bool.false_ne_true), hcomp]

theorem lookup_cons_ne (e : String × Value) (a : List (String × Value)) (k : String)
    (he : (e.1 == k) = false) : lookupAttr (e :: a) k = lookupAttr a k := by
  simp only [lookupAttr, List.find?, he]

theorem lookup_cons_eq (e : String × Value) (a : List (String × Value)) (k : String)
    (he : (e.1 == k) = true) : lookupAttr (e :: a) k = some e.2 := by
  simp [lookupAttr, List.find?, he]

theorem lookup_map_replace_self (a : List (String × Value)) (k : String) (v : Value)
    (h : a.any (fun e => e.1 == k) = true) :
    lookupAttr (a.map (fun e => if e.1 == k then (k, v) else e)) k = some v := by
  induction a with
  | nil => simp at h
  | cons e a' ih =>
    rw [List.map_cons]
    by_cases he : (e.1 == k) = true
    · rw [if_pos he]
      exact lookup_cons_eq _ _ _ (by simp)
    · rw [Bool.not_eq_true] at he
      have h' : a'.any (fun e => e.1 == k) = true := by
        rw [List.any_cons, he, Bool.false_or] at h
        exact h
      rw [if_neg (by simp [he]), lookup_cons_ne _ _ _ he]
      exact ih h'

theorem lookup_append_single_self (a : List (String × Value)) (k : String) (v : Value)
    (h : a.any (fun e => e.1 == k) = false) :
    lookupAttr (a ++ [(k, v)]) k = some v := by
  induction a with
  | nil => exact lookup_cons_eq _ _ _ (by simp)
  | cons e a' ih =>
    have he : (e.1 == k) = false := by
      by_contra hc
      rw [Bool.not_eq_false] at hc
      rw [List.any_cons, hc, Bool.true_or] at h
      simp at h
    have h' : a'.any (fun e => e.1 == k) = false := by
      rw [List.any_cons, he, Bool.false_or] at h
      exact h
    rw [List.cons_append, lookup_cons_ne _ _ _ he]
    exact ih h'

theorem lookup_updEntry_self (a : List (String × Value)) (k : String) (v : Value) :
    lookupAttr (updEntry a k v) k = some v := by
  unfold updEntry
  by_cases h : a.any (fun e => e.1 == k) = true
  · rw [if_pos h]
    exact lookup_map_replace_self a k v h
  · rw [if_neg h]
    rw [Bool.not_eq_true] at h
    exact lookup_append_single_self a k v h

theorem lookup_map_replace_ne (a : List (String × Value)) (k k2 : String) (v : Value)
    (hne : k ≠ k2) :
    lookupAttr (a.map (fun e => if e.1 == k then (k, v) else e)) k2 = lookupAttr a k2 := by
  induction a with
  | nil => rfl
  | cons e a' ih =>
    rw [List.map_cons]
    by_cases he : (e.1 == k) = true
    · rw [if_pos he]
      rw [lookup_cons_ne (k, v) _ k2 (by simpa using hne)]
      rw [lookup_cons_ne e _ k2 (by rw [eq_of_beq he]; simpa using hne)]
      exact ih
    · rw [Bool.not_eq_true] at he
      rw [if_neg (by simp [he])]
      by_cases he2 : (e.1 == k2) = true
      · rw [lookup_cons_eq _ _ _ he2, lookup_cons_eq _ _ _ he2]
      · rw [Bool.not_eq_true] at he2
        rw [lookup_cons_ne _ _ _ he2, lookup_cons_ne _ _ _ he2]
        exact ih

theorem lookup_append_single_ne (a : List (String × Value)) (k k2 : String) (v : Value)
    (hne : k ≠ k2) : lookupAttr (a ++ [(k, v)]) k2 = lookupAttr a k2 := by
  induction a with
  | nil =>
    rw [List.nil_append]
    exact lookup_cons_ne (k, v) _ k2 (by simpa using hne)
  | cons e a' ih =>
    rw [List.cons_append]
    by_cases he2 : (e.1 == k2) = true
    · rw [lookup_cons_eq _ _ _ he2, lookup_cons_eq _ _ _ he2]
    · rw [Bool.not_eq_true] at he2
      rw [lookup_cons_ne _ _ _ he2, lookup_cons_ne _ _ _ he2]
      exact ih

theorem lookup_updEntry_ne (a : List (String × Value)) (k k2 : String) (v : Value)
    (hne : k ≠ k2) : lookupAttr (updEntry a k v) k2 = lookupAttr a k2 := by
  unfold updEntry
  split
  · exact lookup_map_replace_ne a k k2 v hne
  · exact lookup_append_single_ne a k k2 v hne

theorem lookup_updAttrs_or (P : List (String × Value)) :
    ∀ a k, lookupAttr (updAttrs a P) k = lookupAttr a k ∨
      ∃ v, (k, v) ∈ P ∧ lookupAttr (updAttrs a P) k = some v := by
  induction P with
  | nil => intro a k; exact Or.inl rfl
  | cons kv P' ih =>
    intro a k
    have hstep : updAttrs a (kv :: P') = updAttrs (updEntry a kv.1 kv.2) P' := rfl
    rcases ih (updEntry a kv.1 kv.2) k with h | ⟨v, hv, hl⟩
    · by_cases hk : kv.1 = k
      · refine Or.inr ⟨kv.2, ?_, ?_⟩
        · rw [← hk]; exact List.mem_cons_self _ _
        · rw [hstep, h, hk, lookup_updEntry_self]
      · refine Or.inl ?_
        rw [hstep, h, lookup_updEntry_ne _ _ _ _ hk]
    · exact Or.inr ⟨v, List.mem_cons_of_mem _ hv, by rw [hstep]; exact hl⟩

theorem lookup_updAttrs_notin (P : List (String × Value)) (a : List (String × Value))
    (k : String) (h : ∀ kv ∈ P, kv.1 ≠ k) :
    lookupAttr (updAttrs a P) k = lookupAttr a k := by
  rcases lookup_updAttrs_or P a k with h1 | ⟨v, hv, _⟩
  · exact h1
  · exact absurd rfl (h (k, v) hv)

/-- The in-place branch of `updEntry`: rewrite every entry with key `k` to
`(k, v)`. -/
def repEntry (k : String) (v : Value) (a : List (String × Value)) :
    List (String × Value) :=
  a.map (fun e => if e.1 == k then (k, v) else e)

theorem keyPres_repEntry (k k2 : String) (v : Value) (a : List (String × Value)) :
    (repEntry k v a).any (fun e => e.1 == k2) = a.any (fun e => e.1 == k2) := by
  unfold repEntry
  induction a with
  | nil => rfl
  | cons e a' ih =>
    rw [List.map_cons, List.any_cons, List.any_cons, ih]
    by_cases he : (e.1 == k) = true
    · rw [if_pos he, eq_of_beq he]
    · rw [if_neg he]

theorem repEntry_repEntry (k : String) (v w : Value) (a : List (String × Value)) :
    repEntry k v (repEntry k w a) = repEntry k v a := by
  unfold repEntry
  rw [List.map_map]
  apply List.map_congr_left
  intro e _
  by_cases he : (e.1 == k) = true
  · simp [Function.comp, he]
  · simp [Function.comp, he]

theorem repEntry_comm (k k2 : String) (v v2 : Value) (a : List (String × Value))
    (hne : k ≠ k2) :
    repEntry k v (repEntry k2 v2 a) = repEntry k2 v2 (repEntry k v a) := by
  unfold repEntry
  rw [List.map_map, List.map_map]
  apply List.map_congr_left
  intro e _
  by_cases he : (e.1 == k) = true
  · have he2 : (e.1 == k2) = false := by
      rw [eq_of_beq he]
      simpa using hne
    simp [Function.comp, he, he2, (by simpa using hne : (k == k2) = false)]
  · by_cases he2 : (e.1 == k2) = true
    · simp [Function.comp, he, he2,
        (by simpa using (Ne.symm hne) : (k2 == k) = false)]
    · simp [Function.comp, he, he2]

theorem repEntry_id (k : String) (v : Value) (a : List (String × Value))
    (h2 : ∀ e ∈ a, e.1 = k → e = (k, v)) :
    repEntry k v a = a := by
  unfold repEntry
  have : ∀ e ∈ a, (if e.1 == k then (k, v) else e) = e := by
    intro e he
    by_cases hk : (e.1 == k) = true
    · rw [if_pos hk]
      exact (h2 e he (eq_of_beq hk)).symm
    · rw [if_neg hk]
  rw [List.map_congr_left this]
  simp

theorem updEntry_present (a : List (String × Value)) (k : String) (v : Value)
    (h : a.any (fun e => e.1 == k) = true) : updEntry a k v = repEntry k v a := by
  unfold updEntry repEntry
  rw [if_pos h]

theorem repEntry_absent (k : String) (v : Value) (a : List (String × Value))
    (h : a.any (fun e => e.1 == k) = false) : repEntry k v a = a := by
  apply repEntry_id
  intro e he hk
  exfalso
  have hek : (e.1 == k) = true := by simp [hk]
  have h3 : a.any (fun e => e.1 == k) = true := List.any_eq_true.mpr ⟨e, he, hek⟩
  rw [h] at h3
  exact absurd h3 (by simp)

theorem keyPres_updEntry_self (a : List (String × Value)) (k : String) (v : Value) :
    (updEntry a k v).any (fun e => e.1 == k) = true := by
  unfold updEntry
  by_cases h : a.any (fun e => e.1 == k) = true
  · rw [if_pos h]
    have := keyPres_repEntry k k v a
    unfold repEntry at this
    rw [this]
    exact h
  · rw [if_neg h, List.any_append]
    simp

theorem keyPres_updEntry_mono (a : List (String × Value)) (k k2 : String) (v : Value)
    (h : a.any (fun e => e.1 == k2) = true) :
    (updEntry a k v).any (fun e => e.1 == k2) = true := by
  unfold updEntry
  by_cases hp : a.any (fun e => e.1 == k) = true
  · rw [if_pos hp]
    have := keyPres_repEntry k k2 v a
    unfold repEntry at this
    rw [this]
    exact h
  · rw [if_neg hp, List.any_append, h]
    rfl

theorem keyPres_updAttrs_mono (P : List (String × Value)) :
    ∀ a (k : String), a.any (fun e => e.1 == k) = true →
      (updAttrs a P).any (fun e => e.1 == k) = true := by
  induction P with
  | nil => intro a k h; exact h
  | cons kv P' ih =>
    intro a k h
    exact ih (updEntry a kv.1 kv.2) k (keyPres_updEntry_mono a kv.1 k kv.2 h)

theorem updEntry_val (a : List (String × Value)) (k : String) (v : Value) :
    ∀ e ∈ updEntry a k v, e.1 = k → e = (k, v) := by
  unfold updEntry
  split
  · intro e he hk
    obtain ⟨e0, he0, rfl⟩ := List.mem_map.mp he
    by_cases h0 : (e0.1 == k) = true
    · rw [if_pos h0]
    · rw [if_neg h0] at hk ⊢
      exact absurd hk (by simpa using h0)
  · next hany =>
    intro e he hk
    rcases List.mem_append.mp he with h | h
    · exfalso
      apply hany
      exact List.any_eq_true.mpr ⟨e, h, by simp [hk]⟩
    · simpa using h

theorem updEntry_preserve_other (b : List (String × Value)) (k k2 : String)
    (v v2 : Value) (hne : k2 ≠ k)
    (h : ∀ e ∈ b, e.1 = k → e = (k, v)) :
    ∀ e ∈ updEntry b k2 v2, e.1 = k → e = (k, v) := by
  unfold updEntry
  split
  · intro e he hk
    obtain ⟨e0, he0, rfl⟩ := List.mem_map.mp he
    by_cases h0 : (e0.1 == k2) = true
    · rw [if_pos h0] at hk ⊢
      exact absurd hk hne
    · rw [if_neg h0] at hk ⊢
      exact h e0 he0 hk
  · intro e he hk
    rcases List.mem_append.mp he with hm | hm
    · exact h e hm hk
    · have : e = (k2, v2) := by simpa using hm
      rw [this] at hk
      exact absurd hk hne

theorem updAttrs_val_preserve (P : List (String × Value)) :
    ∀ b (k : String) (v : Value), (∀ kv ∈ P, kv.1 ≠ k) →
      (∀ e ∈ b, e.1 = k → e = (k, v)) →
      ∀ e ∈ updAttrs b P, e.1 = k → e = (k, v) := by
  induction P with
  | nil => intro b k v _ h; exact h
  | cons kv P' ih =>
    intro b k v hks h
    exact ih (updEntry b kv.1 kv.2) k v
      (fun kv2 h2 => hks kv2 (List.mem_cons_of_mem _ h2))
      (updEntry_preserve_other b k kv.1 v kv.2
        (hks kv (List.mem_cons_self _ _)) h)

theorem updEntry_repEntry_same (c : List (String × Value)) (k : String) (v v2 : Value) :
    updEntry (repEntry k v c) k v2 = updEntry c k v2 := by
  by_cases hp : c.any (fun e => e.1 == k) = true
  · rw [updEntry_present _ _ _ (by rw [keyPres_repEntry]; exact hp),
      updEntry_present _ _ _ hp, repEntry_repEntry]
  · rw [repEntry_absent k v c (by rw [Bool.not_eq_true] at hp; exact hp)]

theorem updEntry_repEntry_comm (c : List (String × Value)) (k k2 : String)
    (v v2 : Value) (hne : k2 ≠ k) :
    updEntry (repEntry k v c) k2 v2 = repEntry k v (updEntry c k2 v2) := by
  by_cases hp : c.any (fun e => e.1 == k2) = true
  · rw [updEntry_present _ _ _ (by rw [keyPres_repEntry]; exact hp),
      updEntry_present _ _ _ hp]
    exact (repEntry_comm k k2 v v2 c (Ne.symm hne)).symm
  · rw [Bool.not_eq_true] at hp
    unfold updEntry
    rw [if_neg (by rw [keyPres_repEntry]; simp [hp]), if_neg (by simp [hp])]
    unfold repEntry
    rw [List.map_append]
    congr 1
    simp only [List.map_cons, List.map_nil, beq_iff_eq]
    rw [if_neg hne]

theorem updAttrs_repEntry_absorb (P : List (String × Value)) :
    ∀ c (k : String) (v : Value), P.any (fun kv => kv.1 == k) = true →
      updAttrs (repEntry k v c) P = updAttrs c P := by
  induction P with
  | nil => intro c k v h; simp at h
  | cons kv P' ih =>
    intro c k v h
    show updAttrs (updEntry (repEntry k v c) kv.1 kv.2) P' =
      updAttrs (updEntry c kv.1 kv.2) P'
    by_cases hk : kv.1 = k
    · rw [hk, updEntry_repEntry_same]
    · rw [updEntry_repEntry_comm c k kv.1 v kv.2 hk]
      apply ih
      rw [List.any_cons] at h
      rcases Bool.or_eq_true_iff.mp h with h1 | h1
      · exact absurd (eq_of_beq h1) hk
      · exact h1

theorem updAttrs_twice (L : List (String × Value)) :
    ∀ a, updAttrs (updAttrs a L) L = updAttrs a L := by
  induction L with
  | nil => intro a; rfl
  | cons kv L2 ih =>
    intro a
    show updAttrs (updEntry (updAttrs (updEntry a kv.1 kv.2) L2) kv.1 kv.2) L2 =
      updAttrs (updEntry a kv.1 kv.2) L2
    have hpres : (updAttrs (updEntry a kv.1 kv.2) L2).any (fun e => e.1 == kv.1) = true :=
      keyPres_updAttrs_mono L2 _ kv.1 (keyPres_updEntry_self a kv.1 kv.2)
    rw [updEntry_present _ _ _ hpres]
    by_cases hin : L2.any (fun e => e.1 == kv.1) = true
    · rw [updAttrs_repEntry_absorb L2 _ kv.1 kv.2 hin]
      exact ih _
    · have hval : ∀ e ∈ updAttrs (updEntry a kv.1 kv.2) L2, e.1 = kv.1 → e = (kv.1, kv.2) := by
        apply updAttrs_val_preserve
        · intro kv2 h2
          intro hc
          apply hin
          exact List.any_eq_true.mpr ⟨kv2, h2, by simp [hc]⟩
        · exact updEntry_val a kv.1 kv.2
      rw [repEntry_id _ _ _ hval]
      exact ih _

/-- Concatenation, in rule order, of the patches whose pattern matches the
subject; `applyRules` is `updAttrs` with this combined patch. -/
def matchedPatches (rules : List (RE × List (String × Value))) (subject : String) :
    List (String × Value) :=
  ((rules.filter (fun r => (rmatch false r.1 subject).isSome)).map (fun r => r.2)).flatten

theorem updAttrs_append (a P Q : List (String × Value)) :
    updAttrs a (P ++ Q) = updAttrs (updAttrs a P) Q :=
  List.foldl_append _ _ _ _

theorem applyRules_eq_updAttrs (rules : List (RE × List (String × Value)))
    (subject : String) :
    ∀ a, applyRules rules subject a = updAttrs a (matchedPatches rules subject) := by
  induction rules with
  | nil => intro a; rfl
  | cons r rules' ih =>
    intro a
    have hstep : applyRules (r :: rules') subject a =
        applyRules rules' subject
          (if (rmatch false r.1 subject).isSome then updAttrs a r.2 else a) := rfl
    by_cases hm : (rmatch false r.1 subject).isSome = true
    · rw [hstep, if_pos hm, ih]
      have : matchedPatches (r :: rules') subject = r.2 ++ matchedPatches rules' subject := by
        unfold matchedPatches
        rw [List.filter_cons]
        rw [if_pos hm, List.map_cons, List.flatten_cons]
      rw [this, updAttrs_append]
    · rw [hstep, if_neg hm, ih]
      have : matchedPatches (r :: rules') subject = matchedPatches rules' subject := by
        unfold matchedPatches
        rw [List.filter_cons]
        rw [if_neg hm]
      rw [this]

theorem applyRules_twice (rules : List (RE × List (String × Value)))
    (subject : String) (a : List (String × Value)) :
    applyRules rules subject (applyRules rules subject a) =
      applyRules rules subject a := by
  rw [applyRules_eq_updAttrs rules subject (applyRules rules subject a),
    applyRules_eq_updAttrs rules subject a]
  exact updAttrs_twice _ _

theorem lookup_applyRules_notin (rules : List (RE × List (String × Value)))
    (subject : String) (a : List (String × Value)) (k : String)
    (h : ∀ r ∈ rules, ∀ kv ∈ r.2, kv.1 ≠ k) :
    lookupAttr (applyRules rules subject a) k = lookupAttr a k := by
  rw [applyRules_eq_updAttrs]
  apply lookup_updAttrs_notin
  intro kv hkv
  unfold matchedPatches at hkv
  rw [List.mem_flatten] at hkv
  obtain ⟨l, hl, hkvl⟩ := hkv
  obtain ⟨r, hr, rfl⟩ := List.mem_map.mp hl
  exact h r (List.mem_filter.mp hr).1 kv hkvl

/-- Structural induction principle for the nested record type: to prove a
property of a record it suffices to prove it assuming it for every child. -/
def TrackRec.strongInd {P : TrackRec → Prop}
    (h : ∀ attrs children, (∀ ts, children = some ts → ∀ t ∈ ts, P t) →
      P (.mk attrs children)) : (t : TrackRec) → P t
  | .mk attrs children =>
    h attrs children (fun ts hts t ht => TrackRec.strongInd h t)
termination_by t => sizeOf t
decreasing_by
  rw [hts]
  have h2 : sizeOf t < sizeOf ts := List.sizeOf_lt_of_mem ht
  simp only [TrackRec.mk.sizeOf_spec, Option.some.sizeOf_spec]
  omega

theorem updateChildren_idem (rules : List (RE × List (String × Value))) :
    ∀ ts ts2 : List TrackRec,
      (∀ t ∈ ts, ∀ u, update_track_features rules t = .ok u →
        update_track_features rules u = .ok u) →
      updateChildren rules ts = .ok ts2 → updateChildren rules ts2 = .ok ts2 := by
  intro ts
  induction ts with
  | nil =>
    intro ts2 _ h2
    unfold updateChildren at h2
    have : ts2 = [] := by
      have := h2
      injection this with h3
      exact h3.symm
    subst this
    rfl
  | cons t ts' ih =>
    intro ts2 hP h2
    unfold updateChildren at h2
    cases hu : update_track_features rules t with
    | error e => rw [hu] at h2; simp at h2
    | ok t2 =>
      rw [hu] at h2
      cases hc : updateChildren rules ts' with
      | error e => rw [hc] at h2; simp at h2
      | ok ts2' =>
        rw [hc] at h2
        have hts2 : ts2 = t2 :: ts2' := by
          injection h2 with h3
          exact h3.symm
        subst hts2
        show updateChildren rules (t2 :: ts2') = .ok (t2 :: ts2')
        unfold updateChildren
        rw [hP t (List.mem_cons_self _ _) t2 hu]
        rw [ih ts2' (fun u hu2 => hP u (List.mem_cons_of_mem _ hu2)) hc]

/-- Rule sets whose patches never write the keys that
`update_track_features` consults: the match subjects `track_path` and
`name`, the overlay discriminator `type`, and the children key `tracks`. -/
def SubjectSafe (rules : List (RE × List (String × Value))) : Prop :=
  ∀ r ∈ rules, ∀ kv ∈ r.2,
    kv.1 ≠ "track_path" ∧ kv.1 ≠ "name" ∧ kv.1 ≠ "type" ∧ kv.1 ≠ "tracks"

/-- C9 counterexample: with the record `{track_path: "x"}` and the rules
`{^x: {track_path: "y", height: 1}, ^y: {height: 2}}`, the first
application yields height 1, but re-applying the same rules to the patched
record yields height 2 — the patched `track_path` now matches the second
rule — so a second application does not leave every attribute value
unchanged. -/
theorem claim_C9_counterexample :
    (update_track_features c9Rules c9Rec).map (fun r => lookupAttr r.attrs "height") =
      .ok (some (.vint 1)) ∧
    ((update_track_features c9Rules c9Rec).bind (update_track_features c9Rules)).map
      (fun r => lookupAttr r.attrs "height") = .ok (some (.vint 2)) := by
  exact ⟨rfl, rfl⟩

theorem update_unfold_overlay (rules : List (RE × List (String × Value)))
    (attrs : List (String × Value)) (ts : List TrackRec) (nm : String)
    (hty : (lookupAttr attrs "type" == some (Value.vstr "merged")) = true)
    (hnm : lookupAttr attrs "name" = some (Value.vstr nm)) :
    update_track_features rules (.mk attrs (some ts)) =
      (match updateChildren rules ts with
       | Except.error e => Except.error e
       | Except.ok ts2 =>
         Except.ok (TrackRec.mk (applyRules rules nm attrs) (some ts2))) := by
  unfold update_track_features
  rw [if_pos hty, hnm]

theorem update_unfold_plain (rules : List (RE × List (String × Value)))
    (attrs : List (String × Value)) (children : Option (List TrackRec)) (tp : String)
    (hty : (lookupAttr attrs "type" == some (Value.vstr "merged")) = false)
    (htp : lookupAttr attrs "track_path" = some (Value.vstr tp)) :
    update_track_features rules (.mk attrs children) =
      Except.ok (TrackRec.mk (applyRules rules tp attrs) children) := by
  unfold update_track_features
  rw [if_neg (by rw [hty]; exact Bool.false_ne_true), htp]

/-- C9 amended: `update_track_features` is idempotent provided no patch of
the rule set writes the keys `track_path`, `name`, `type` or `tracks` (the
match subjects and structure discriminators); without that restriction a
patch can change which rules match on the second pass. -/
theorem claim_C9_amended (rules : List (RE × List (String × Value)))
    (hsafe : SubjectSafe rules) :
    ∀ t t', update_track_features rules t = .ok t' →
      update_track_features rules t' = .ok t' := by
  have hTP : ∀ r ∈ rules, ∀ kv ∈ r.2, kv.1 ≠ "track_path" :=
    fun r hr kv hkv => (hsafe r hr kv hkv).1
  have hNM : ∀ r ∈ rules, ∀ kv ∈ r.2, kv.1 ≠ "name" :=
    fun r hr kv hkv => (hsafe r hr kv hkv).2.1
  have hTY : ∀ r ∈ rules, ∀ kv ∈ r.2, kv.1 ≠ "type" :=
    fun r hr kv hkv => (hsafe r hr kv hkv).2.2.1
  refine TrackRec.strongInd ?_
  intro attrs children hIH t' hok
  by_cases hty : (lookupAttr attrs "type" == some (Value.vstr "merged")) = true
  · -- overlay record
    cases hnm : lookupAttr attrs "name" with
    | none =>
      unfold update_track_features at hok
      rw [if_pos hty, hnm] at hok
      simp at hok
    | some nv =>
      cases nv with
      | vstr nm =>
        cases children with
        | none =>
          unfold update_track_features at hok
          rw [if_pos hty, hnm] at hok
          simp at hok
        | some ts =>
          have hok2 : (match updateChildren rules ts with
              | Except.error e => Except.error e
              | Except.ok ts2 =>
                Except.ok (TrackRec.mk (applyRules rules nm attrs) (some ts2))) =
              Except.ok t' := by
            rw [← update_unfold_overlay rules attrs ts nm hty hnm]
            exact hok
          cases hc : updateChildren rules ts with
          | error e => rw [hc] at hok2; simp at hok2
          | ok ts2 =>
            rw [hc] at hok2
            simp only [Except.ok.injEq] at hok2
            have ht' : t' = TrackRec.mk (applyRules rules nm attrs) (some ts2) :=
              hok2.symm
            subst ht'
            have hty2 : (lookupAttr (applyRules rules nm attrs) "type" ==
                some (Value.vstr "merged")) = true := by
              rw [lookup_applyRules_notin rules nm attrs "type" hTY]
              exact hty
            have hnm2 : lookupAttr (applyRules rules nm attrs) "name" =
                some (Value.vstr nm) := by
              rw [lookup_applyRules_notin rules nm attrs "name" hNM, hnm]
            rw [update_unfold_overlay rules _ ts2 nm hty2 hnm2]
            rw [updateChildren_idem rules ts ts2
              (fun u hu w hw => hIH ts rfl u hu w hw) hc]
            show Except.ok
                (TrackRec.mk (applyRules rules nm (applyRules rules nm attrs)) (some ts2)) = _
            rw [applyRules_twice]
      | vint n =>
        unfold update_track_features at hok
        rw [if_pos hty, hnm] at hok
        simp at hok
      | vbool b =>
        unfold update_track_features at hok
        rw [if_pos hty, hnm] at hok
        simp at hok
      | vtenths q =>
        unfold update_track_features at hok
        rw [if_pos hty, hnm] at hok
        simp at hok
  · -- plain record
    rw [Bool.not_eq_true] at hty
    cases htp : lookupAttr attrs "track_path" with
    | none =>
      unfold update_track_features at hok
      rw [if_neg (by rw [hty]; exact Bool.false_ne_true), htp] at hok
      simp at hok
    | some tv =>
      cases tv with
      | vstr tp =>
        rw [update_unfold_plain rules attrs children tp hty htp] at hok
        have ht' : t' = TrackRec.mk (applyRules rules tp attrs) children := by
          injection hok with h3
          exact h3.symm
        subst ht'
        have hty2 : (lookupAttr (applyRules rules tp attrs) "type" ==
            some (Value.vstr "merged")) = false := by
          rw [lookup_applyRules_notin rules tp attrs "type" hTY]
          exact hty
        have htp2 : lookupAttr (applyRules rules tp attrs) "track_path" =
            some (Value.vstr tp) := by
          rw [lookup_applyRules_notin rules tp attrs "track_path" hTP, htp]
        rw [update_unfold_plain rules _ children tp hty2 htp2]
        rw [applyRules_twice]
      | vint n =>
        unfold update_track_features at hok
        rw [if_neg (by rw [hty]; exact Bool.false_ne_true), htp] at hok
        simp at hok
      | vbool b =>
        unfold update_track_features at hok
        rw [if_neg (by rw [hty]; exact Bool.false_ne_true), htp] at hok
        simp at hok
      | vtenths q =>
        unfold update_track_features at hok
        rw [if_neg (by rw [hty]; exact Bool.false_ne_true), htp] at hok
        simp at hok

/-- C9 witness: the amended theorem applied to the already-patched
FeatureApplier example record with its subject-safe rules. -/
theorem claim_C9_witness :
    update_track_features c7Rules
      (.mk [("track_path", .vstr "x/y.bed"), ("height", .vint 50)] none) =
    .ok (.mk [("track_path", .vstr "x/y.bed"), ("height", .vint 50)] none) :=
  claim_C9_amended c7Rules
    (by intro r hr kv hkv; fin_cases hr <;> fin_cases hkv <;> refine ⟨?_, ?_, ?_, ?_⟩ <;> decide)
    c7Rec _ (by rfl)

/-- Discriminator used by `update_track_features` and by the output-shape
claims: a record is an overlay iff its `type` entry is `"merged"`. -/
def isOverlayRec (r : TrackRec) : Bool :=
  lookupAttr r.attrs "type" == some (.vstr "merged")

theorem lookup_featFold_or (l : List (String × List (String × Value)))
    (cond : String → Bool) :
    ∀ a (k : String),
    lookupAttr (l.foldl (fun acc ef => if cond ef.1 then updAttrs acc ef.2 else acc) a) k
        = lookupAttr a k ∨
      ∃ ef ∈ l, ∃ v, (k, v) ∈ ef.2 ∧
        lookupAttr (l.foldl (fun acc ef => if cond ef.1 then updAttrs acc ef.2 else acc) a) k
          = some v := by
  induction l with
  | nil => intro a k; exact Or.inl rfl
  | cons ef l2 ih =>
    intro a k
    have hstep : (ef :: l2).foldl
        (fun acc ef => if cond ef.1 then updAttrs acc ef.2 else acc) a =
        l2.foldl (fun acc ef => if cond ef.1 then updAttrs acc ef.2 else acc)
          (if cond ef.1 then updAttrs a ef.2 else a) := rfl
    by_cases hc : cond ef.1 = true
    · rcases ih (updAttrs a ef.2) k with h | ⟨ef2, hef2, v, hv, heq⟩
      · rcases lookup_updAttrs_or ef.2 a k with h2 | ⟨v, hv, heq⟩
        · refine Or.inl ?_
          rw [hstep, if_pos hc, h, h2]
        · refine Or.inr ⟨ef, List.mem_cons_self _ _, v, hv, ?_⟩
          rw [hstep, if_pos hc, h, heq]
      · refine Or.inr ⟨ef2, List.mem_cons_of_mem _ hef2, v, hv, ?_⟩
        rw [hstep, if_pos hc]
        exact heq
    · rcases ih a k with h | ⟨ef2, hef2, v, hv, heq⟩
      · refine Or.inl ?_
        rw [hstep, if_neg hc]
        exact h
      · refine Or.inr ⟨ef2, List.mem_cons_of_mem _ hef2, v, hv, ?_⟩
        rw [hstep, if_neg hc]
        exact heq

theorem sbf_lookup_or (p : FPath) (idx : Option FPath) (order : Int) (pre : String)
    (k : String) :
    lookupAttr (sbfPlainAttrs p idx order pre) k =
        lookupAttr (sbfBaseAttrs p idx order pre) k ∨
      ∃ ef ∈ BASE_TRACK_FEATURES, ∃ v, (k, v) ∈ ef.2 ∧
        lookupAttr (sbfPlainAttrs p idx order pre) k = some v :=
  lookup_featFold_or BASE_TRACK_FEATURES (pyEndsWith p.name)
    (sbfBaseAttrs p idx order pre) k

theorem sbf_lookup_name (p : FPath) (idx : Option FPath) (order : Int) (pre : String) :
    lookupAttr (sbfPlainAttrs p idx order pre) "name" = some (.vstr p.stem) := by
  rcases sbf_lookup_or p idx order pre "name" with h | ⟨ef, hef, v, hv, _⟩
  · rw [h]; cases idx <;> rfl
  · exfalso
    have hall : ∀ ef ∈ BASE_TRACK_FEATURES, ∀ kv ∈ ef.2, kv.1 ≠ "name" := by decide
    exact hall ef hef ("name", v) hv rfl

theorem sbf_lookup_order (p : FPath) (idx : Option FPath) (order : Int) (pre : String) :
    lookupAttr (sbfPlainAttrs p idx order pre) "order" = some (.vint order) := by
  rcases sbf_lookup_or p idx order pre "order" with h | ⟨ef, hef, v, hv, _⟩
  · rw [h]; cases idx <;> rfl
  · exfalso
    have hall : ∀ ef ∈ BASE_TRACK_FEATURES, ∀ kv ∈ ef.2, kv.1 ≠ "order" := by decide
    exact hall ef hef ("order", v) hv rfl

theorem sbf_lookup_url (p : FPath) (idx : Option FPath) (order : Int) (pre : String) :
    lookupAttr (sbfPlainAttrs p idx order pre) "url" = some (.vstr (pre ++ p.posix)) := by
  rcases sbf_lookup_or p idx order pre "url" with h | ⟨ef, hef, v, hv, _⟩
  · rw [h]; cases idx <;> rfl
  · exfalso
    have hall : ∀ ef ∈ BASE_TRACK_FEATURES, ∀ kv ∈ ef.2, kv.1 ≠ "url" := by decide
    exact hall ef hef ("url", v) hv rfl

theorem sbf_type_ne_merged (p : FPath) (idx : Option FPath) (order : Int) (pre : String) :
    (lookupAttr (sbfPlainAttrs p idx order pre) "type" == some (Value.vstr "merged")) =
      false := by
  rcases sbf_lookup_or p idx order pre "type" with h | ⟨ef, hef, v, hv, heq⟩
  · rw [h]; cases idx <;> rfl
  · rw [heq]
    have hall : ∀ ef ∈ BASE_TRACK_FEATURES, ∀ kv ∈ ef.2, kv.1 = "type" →
        kv.2 = Value.vstr "annotation" ∨ kv.2 = Value.vstr "wig" := by decide
    rcases hall ef hef ("type", v) hv rfl with h2 | h2 <;>
      simp only at h2 <;> rw [h2] <;> rfl

theorem overlay_attrs_facts (nm : Value) :
    lookupAttr (updEntry (updEntry (updAttrs [] BASE_OVERLAY_TRACK_FEATURES) "name" nm)
        "type" (.vstr "merged")) "type" = some (.vstr "merged") ∧
    lookupAttr (updEntry (updEntry (updAttrs [] BASE_OVERLAY_TRACK_FEATURES) "name" nm)
        "type" (.vstr "merged")) "name" = some nm ∧
    lookupAttr (updEntry (updEntry (updAttrs [] BASE_OVERLAY_TRACK_FEATURES) "name" nm)
        "type" (.vstr "merged")) "order" = none ∧
    lookupAttr (updEntry (updEntry (updAttrs [] BASE_OVERLAY_TRACK_FEATURES) "name" nm)
        "type" (.vstr "merged")) "url" = none := by
  exact ⟨rfl, rfl, rfl, rfl⟩

theorem listExcept_cons {ε α : Type} (e : Except ε α) (l : List (Except ε α)) :
    listExcept (e :: l) =
      (match e with
       | Except.error err => Except.error err
       | Except.ok a =>
         match listExcept l with
         | Except.error err => Except.error err
         | Except.ok as2 => Except.ok (a :: as2)) := by
  cases e <;> rfl

theorem makeRecords_spec (pre : String) :
    ∀ (tps : List TrackItem) (n : Nat) (recs : List TrackRec),
    listExcept ((tps.enumFrom n).map
      (fun it => set_base_track_features it.2 (Int.ofNat it.1 + 10) pre)) = .ok recs →
    recs.length = tps.length ∧
    ∀ i (hi : i < recs.length),
      (lookupAttr (recs.get ⟨i, hi⟩).attrs "name").isSome = true ∧
      (if isOverlayRec (recs.get ⟨i, hi⟩) then
        (∃ ch, (recs.get ⟨i, hi⟩).children = some ch ∧ ch.length = 2) ∧
        lookupAttr (recs.get ⟨i, hi⟩).attrs "order" = none ∧
        lookupAttr (recs.get ⟨i, hi⟩).attrs "url" = none
      else
        lookupAttr (recs.get ⟨i, hi⟩).attrs "order" =
          some (.vint (Int.ofNat (n + i) + 10)) ∧
        (lookupAttr (recs.get ⟨i, hi⟩).attrs "url").isSome = true) := by
  intro tps
  induction tps with
  | nil =>
    intro n recs h
    have : recs = [] := by
      simp only [List.enumFrom, List.map_nil] at h
      injection h with h2
      exact h2.symm
    subst this
    exact ⟨rfl, fun i hi => absurd hi (by simp)⟩
  | cons tp tps' ih =>
    intro n recs h
    simp only [List.enumFrom, List.map_cons] at h
    rw [listExcept_cons] at h
    cases hr : set_base_track_features tp (Int.ofNat n + 10) pre with
    | error e => rw [hr] at h; simp at h
    | ok r0 =>
      rw [hr] at h
      cases hrest : listExcept ((tps'.enumFrom (n + 1)).map
          (fun it => set_base_track_features it.2 (Int.ofNat it.1 + 10) pre)) with
      | error e => rw [hrest] at h; simp at h
      | ok recs' =>
        rw [hrest] at h
        simp only [Except.ok.injEq] at h
        have hrecs : recs = r0 :: recs' := h.symm
        subst hrecs
        obtain ⟨hlen, hprops⟩ := ih (n + 1) recs' hrest
        refine ⟨by simp [hlen], ?_⟩
        intro i hi
        cases i with
        | succ i2 =>
          have hi2 : i2 < recs'.length := by simpa using hi
          have := hprops i2 hi2
          have hget : (r0 :: recs').get ⟨i2 + 1, hi⟩ = recs'.get ⟨i2, hi2⟩ := rfl
          rw [hget]
          have harith : n + 1 + i2 = n + (i2 + 1) := by omega
          rw [harith] at this
          exact this
        | zero =>
          have hget : (r0 :: recs').get ⟨0, hi⟩ = r0 := rfl
          rw [hget]
          cases tp with
          | track p idx =>
            have hr0 : r0 = .mk (sbfPlainAttrs p idx (Int.ofNat n + 10) pre) none := by
              unfold set_base_track_features at hr
              injection hr with h2
              exact h2.symm
            subst hr0
            have hnotov : isOverlayRec (.mk (sbfPlainAttrs p idx (Int.ofNat n + 10) pre) none)
                = false := sbf_type_ne_merged p idx _ pre
            rw [hnotov]
            refine ⟨by simp only [TrackRec.attrs]; rw [sbf_lookup_name]; rfl, ?_⟩
            simp only [Bool.false_eq_true, if_false]
            constructor
            · simp only [TrackRec.attrs]
              rw [sbf_lookup_order]
              simp
            · simp only [TrackRec.attrs]
              rw [sbf_lookup_url]
              rfl
          | rnaBigWig p idx rev =>
            cases rev with
            | none =>
              exfalso
              unfold set_base_track_features at hr
              simp at hr
            | some rv =>
              have hr0 : r0 = .mk
                  (updEntry (updEntry (updAttrs [] BASE_OVERLAY_TRACK_FEATURES) "name"
                    (.vstr ("Overlay " ++ pyReplace p.name "forward" "")))
                    "type" (.vstr "merged"))
                  (some [.mk (sbfPlainAttrs p none (Int.ofNat n + 10) pre) none,
                         .mk (sbfPlainAttrs rv none (Int.ofNat n + 10) pre) none]) := by
                unfold set_base_track_features at hr
                injection hr with h2
                exact h2.symm
              subst hr0
              obtain ⟨hty, hnm, hord, hurl⟩ := overlay_attrs_facts
                (.vstr ("Overlay " ++ pyReplace p.name "forward" ""))
              have hov : isOverlayRec (.mk
                  (updEntry (updEntry (updAttrs [] BASE_OVERLAY_TRACK_FEATURES) "name"
                    (.vstr ("Overlay " ++ pyReplace p.name "forward" "")))
                    "type" (.vstr "merged"))
                  (some [.mk (sbfPlainAttrs p none (Int.ofNat n + 10) pre) none,
                         .mk (sbfPlainAttrs rv none (Int.ofNat n + 10) pre) none])) = true := by
                unfold isOverlayRec
                simp only [TrackRec.attrs]
                rw [hty]
                rfl
              rw [hov]
              constructor
              · simp only [TrackRec.attrs]
                rw [hnm]
                rfl
              · simp only [if_true]
                refine ⟨⟨_, rfl, rfl⟩, ?_, ?_⟩
                · simp only [TrackRec.attrs]
                  exact hord
                · simp only [TrackRec.attrs]
                  exact hurl

/-- C4 counterexample: a final sequence containing one overlay record whose
record carries a `name` but neither an `order` nor a `url` key, so not every
output record carries at minimum `name`, `order` and `url`. -/
theorem claim_C4_counterexample :
    (makeTrackRecords c4Input "http://localhost:8001/").map (fun rs => rs.map (fun r =>
      (lookupAttr r.attrs "order", lookupAttr r.attrs "url", lookupAttr r.attrs "name"))) =
    .ok [(none, none, some (.vstr "Overlay sampleA..bigWig"))] := by rfl

/-- C4 amended: every record of the constructed sequence carries a `name`;
every non-overlay record at 0-based position `i` carries `order = 10 + i`
(the fixed base offset plus its position, hence strictly increasing) and a
`url`; every overlay record instead carries a `tracks` list of exactly two
child records and no `order` or `url` of its own. -/
theorem claim_C4_amended (tps : List TrackItem) (pre : String) (recs : List TrackRec)
    (h : makeTrackRecords tps pre = .ok recs) :
    recs.length = tps.length ∧
    ∀ i (hi : i < recs.length),
      (lookupAttr (recs.get ⟨i, hi⟩).attrs "name").isSome = true ∧
      (if isOverlayRec (recs.get ⟨i, hi⟩) then
        (∃ ch, (recs.get ⟨i, hi⟩).children = some ch ∧ ch.length = 2) ∧
        lookupAttr (recs.get ⟨i, hi⟩).attrs "order" = none ∧
        lookupAttr (recs.get ⟨i, hi⟩).attrs "url" = none
      else
        lookupAttr (recs.get ⟨i, hi⟩).attrs "order" = some (.vint (Int.ofNat i + 10)) ∧
        (lookupAttr (recs.get ⟨i, hi⟩).attrs "url").isSome = true) := by
  have hspec := makeRecords_spec pre tps 0 recs h
  refine ⟨hspec.1, ?_⟩
  intro i hi
  have := hspec.2 i hi
  rw [Nat.zero_add] at this
  exact this

/-- C4 witness: the amended theorem applied to a two-element input holding
one plain track and one paired overlay. -/
theorem claim_C4_witness :
    ∃ recs, makeTrackRecords
        [.track ⟨"x.bed"⟩ none,
         .rnaBigWig ⟨"s.forward.bigWig"⟩ none (some ⟨"s.reverse.bigWig"⟩)] "u/" =
        .ok recs ∧
      recs.length = 2 ∧
      ∀ i (hi : i < recs.length),
        (lookupAttr (recs.get ⟨i, hi⟩).attrs "name").isSome = true ∧
        (if isOverlayRec (recs.get ⟨i, hi⟩) then
          (∃ ch, (recs.get ⟨i, hi⟩).children = some ch ∧ ch.length = 2) ∧
          lookupAttr (recs.get ⟨i, hi⟩).attrs "order" = none ∧
          lookupAttr (recs.get ⟨i, hi⟩).attrs "url" = none
        else
          lookupAttr (recs.get ⟨i, hi⟩).attrs "order" = some (.vint (Int.ofNat i + 10)) ∧
          (lookupAttr (recs.get ⟨i, hi⟩).attrs "url").isSome = true) := by
  obtain ⟨recs, hrecs⟩ : ∃ recs, makeTrackRecords
      [.track ⟨"x.bed"⟩ none,
       .rnaBigWig ⟨"s.forward.bigWig"⟩ none (some ⟨"s.reverse.bigWig"⟩)] "u/" =
      .ok recs := ⟨_, rfl⟩
  refine ⟨recs, hrecs, ?_, (claim_C4_amended _ "u/" _ hrecs).2⟩
  rw [(claim_C4_amended _ "u/" _ hrecs).1]
  rfl

/-- C1: on the spec's example input (all three files matching the RNA
pattern `.*`), `group_rna_strands` pairs sampleA's two strand files into one
`RNABigWig`, but returns sampleB's unpaired forward file as an `RNABigWig`
with `reverse_strand = None` rather than as a plain `Track` — and
`set_base_track_features` treats every `RNABigWig` as an overlay, so its
`assert trackpath.reverse_strand is not None` fails on that record (the
program aborts).  The second conjunct evaluates that failure at the order
value 11 the record would receive in `main`. -/
theorem claim_C1 :
    group_rna_strands c1Tracks [rePatAll] =
      [ .rnaBigWig ⟨"sampleA.forward.bigWig"⟩ none (some ⟨"sampleA.reverse.bigWig"⟩),
        .rnaBigWig ⟨"sampleB.forward.bigWig"⟩ none none ] ∧
    set_base_track_features (.rnaBigWig ⟨"sampleB.forward.bigWig"⟩ none none) 11
        "http://localhost:8001/" =
      .error "AssertionError: trackpath.reverse_strand is None" := by
  exact ⟨rfl, rfl⟩

/-- C6 counterexample: the reverse file `a.reverse.bigWig` sorts before the
forward file `a.reverseforward.bigWig` of the same pairing group (both
normalise to `a..bigWig`), so the unpaired-reverse `break` drops not only
the reverse file but also the remaining forward file: the overlay-eligible
output is empty, contradicting the claim that only the reverse file is
dropped and the remaining candidates are processed normally. -/
theorem claim_C6_counterexample : group_rna_strands c6Tracks [rePatAll] = [] := by rfl

/-- C6 amended: when a reverse-strand file is encountered in a pairing group
with no open forward strand, the diagnostic `break` ends that group: the
reverse file and every remaining file of the group are dropped from the
overlay-eligible output, which keeps exactly the tracks accumulated so far;
the run continues (the function returns normally) and other groups are
unaffected. -/
theorem claim_C6_amended (acc : List TrackItem) (t : TrackItem) (ts : List TrackItem)
    (hrev : hasSubstr t.path.name "reverse" = true)
    (hfwd : hasSubstr t.path.name "forward" = false) :
    pairGroupGo acc false (t :: ts) = acc.reverse := by
  unfold pairGroupGo
  rw [hfwd]
  simp only [Bool.false_eq_true, if_false]
  rw [hrev]
  simp

/-- C6 witness: the amended theorem applied to the concrete group of
`claim_C6_counterexample`. -/
theorem claim_C6_witness :
    pairGroupGo [] false
      [.track ⟨"a.reverse.bigWig"⟩ none, .track ⟨"a.reverseforward.bigWig"⟩ none] = [] :=
  claim_C6_amended [] (.track ⟨"a.reverse.bigWig"⟩ none)
    [.track ⟨"a.reverseforward.bigWig"⟩ none] (by rfl) (by rfl)

/-- C7: on the record `{track_path: "x/y.bed"}` with the ordered rules
`{^x/.*: {height: 30}, ^x/y.*: {height: 50}}`, both patterns prefix-match,
the patches are merged in declaration order, and the resulting record's
height is 50 (the later rule wins). -/
theorem claim_C7 :
    update_track_features c7Rules c7Rec =
      .ok (.mk [("track_path", .vstr "x/y.bed"), ("height", .vint 50)] none) := by rfl

/-- C10: in a group holding one forward file followed by two reverse files,
each reverse file overwrites the `reverse_strand` of the single opened
overlay (the flag is never reset), so the output is a single `RNABigWig`
paired with the last reverse file and the first reverse file's pairing is
silently lost. -/
theorem claim_C10 :
    group_rna_strands c10Tracks [rePatAll] =
      [.rnaBigWig ⟨"a.forward.bigWig"⟩ none (some ⟨"a.reversereverse.bigWig"⟩)] := by rfl
